import Mathlib

/-!
Verification of the windowed spectral averaging notebook
(`examples/Improving_embeddings_with_signal_processing.ipynb`).

The notebook's core consists of:

* `split_text(text, segment_length=40, overlap_percent=0.5)` — a sliding-window
  word segmenter with dynamic-type validation of its arguments;
* `get_fft(embedding) = librosa.stft(embedding, n_fft=32, win_length=4)` —
  a short-time Fourier transform of the chunk-by-dimension embedding matrix
  (librosa transforms along the last axis of its input, with the defaults
  `hop_length = win_length // 4 = 1`, a Hann window of length 4 padded to 32,
  `center=True` and zero padding);
* `lowpass_filter(fft, cutoff=0.5)` — copies the array and assigns
  `fft[:, int(cutoff*fft.shape[1]):] = 0`;
* `fft_to_embedding(fft) = librosa.istft(fft, win_length=4)` — the inverse
  transform (conjugate-symmetric completion of the one-sided spectrum, inverse
  DFT per frame, windowed overlap-add, squared-window normalisation, centre
  trimming);
* a final `np.mean(embeddings, axis=0)` over the chunk axis.

The segmenter is modelled over a small inductive type of Python values so that
the dynamic `isinstance` checks are captured (in Python, `bool` is a subclass
of `int`, and `int` is not an instance of `float`).  The numerical pipeline is
modelled in exact arithmetic over `ℝ` and `ℂ`: every numpy array becomes a
(nested) list, the DFT twiddle factors are `Complex.exp` of the exact angles,
and floating-point tolerances of the claims become exact equality.
-/

/-- Python values, as far as the segmenter's dynamic typing needs them.
Floats are idealised as rationals (all float literals that reach the
segmenter, such as `0.5` and `1.5`, are exactly representable). -/
inductive PyVal where
  | str (s : String)
  | int (n : ℤ)
  | bool (b : Bool)
  | float (q : ℚ)
  | none
deriving DecidableEq

/-- Python exceptions raised by `split_text`. -/
inductive PyError where
  | typeError (msg : String)
  | valueError (msg : String)
deriving DecidableEq

/-- Python `isinstance(v, str)`. -/
def isinstanceStr : PyVal → Bool
  | .str _ => true
  | _ => false

/-- Python `isinstance(v, int)`: `bool` is a subclass of `int`. -/
def isinstanceInt : PyVal → Bool
  | .int _ => true
  | .bool _ => true
  | _ => false

/-- Python `isinstance(v, float)`: ints and bools are not float instances. -/
def isinstanceFloat : PyVal → Bool
  | .float _ => true
  | _ => false

/-- The integer value of a Python int (or bool, `True == 1`). -/
def pyIntVal : PyVal → ℤ
  | .int n => n
  | .bool b => if b then 1 else 0
  | _ => 0

/-- The rational value of a Python float. -/
def pyFloatVal : PyVal → ℚ
  | .float q => q
  | _ => 0

/-- Python `str.isspace` characters that `str.split()` breaks on
(space, tab, newline, carriage return, vertical tab, form feed). -/
def pyIsSpace (c : Char) : Bool :=
  c = ' ' || c = '\t' || c = '\n' || c = '\r' || c = '\x0b' || c = '\x0c'

/-- Accumulator pass of `str.split()`: `acc` holds the current word reversed. -/
def splitWordsAux : List Char → List Char → List String
  | [], acc => if acc.isEmpty then [] else [String.mk acc.reverse]
  | c :: cs, acc =>
    if pyIsSpace c then
      if acc.isEmpty then splitWordsAux cs []
      else String.mk acc.reverse :: splitWordsAux cs []
    else splitWordsAux cs (c :: acc)

/-- Python `s.split()` with no argument: split on runs of whitespace,
discarding empty tokens. -/
def pyStrSplit (s : String) : List String := splitWordsAux s.data []

/-- Python `int()` applied to a float: truncation toward zero. -/
def pyIntOfRat (q : ℚ) : ℤ := if 0 ≤ q then Int.floor q else -Int.floor (-q)

/-- Python `range(i, stop, step)` for nonnegative bounds and positive step,
with explicit fuel (`stop` steps always suffice once `step ≥ 1`). -/
def pyRangeAux (stop step : ℕ) : ℕ → ℕ → List ℕ
  | _, 0 => []
  | i, fuel + 1 => if i < stop then i :: pyRangeAux stop step (i + step) fuel else []

/-- Python `range(0, stop, step)` for `step ≥ 1`. -/
def pyRange0 (stop step : ℕ) : List ℕ := pyRangeAux stop step 0 stop

/-- Python `" ".join(words)`. -/
def pyJoinSpace (ws : List String) : String := String.intercalate " " ws

/-- Python slice `words[i : i + len]` for nonnegative `i`, `len`. -/
def pySlice (ws : List String) (i len : ℕ) : List String := (ws.drop i).take len

/-- The notebook's `split_text(text, segment_length, overlap_percent)`.
The validation mirrors the source line by line; `range(0, len(words), skip)`
raises `ValueError` in Python whenever `skip == 0`, which the model returns as
the corresponding error.  The loop body is `" ".join(words[i:i+segment_length])`. -/
def splitText (text segment_length overlap_percent : PyVal) :
    Except PyError (List String) :=
  match text with
  | .str s =>
    if isinstanceInt segment_length = false ∨ pyIntVal segment_length ≤ 0 then
      .error (.valueError "segment_length must be a positive integer")
    else if isinstanceFloat overlap_percent = false ∨ pyFloatVal overlap_percent < 0
        ∨ 1 < pyFloatVal overlap_percent then
      .error (.valueError "overlap_percent must be a float between 0 and 1")
    else
      let words := pyStrSplit s
      let skip := pyIntOfRat ((pyIntVal segment_length : ℚ) * (1 - pyFloatVal overlap_percent))
      if skip = 0 then
        .error (.valueError "range() arg 3 must not be zero")
      else
        .ok ((pyRange0 words.length skip.toNat).map
          (fun i => pyJoinSpace (pySlice words i (pyIntVal segment_length).toNat)))
  | _ => .error (.typeError "text must be a string")

/-! ## The spectral pipeline

`get_fft(embedding) = librosa.stft(embedding, n_fft=32, win_length=4)` and
`fft_to_embedding(fft) = librosa.istft(fft, win_length=4)`, with librosa's
defaults: `hop_length = win_length // 4`, Hann window padded (centred) to
`n_fft`, `center=True`, zero (`constant`) padding.  librosa operates along the
*last* axis of its input: given the `(N chunks) × (D dimensions)` embedding
matrix it returns an `(N, 1 + n_fft/2, frames)` array, one short-time
transform per chunk, taken along the dimension axis.  Arrays are nested lists
(outermost = axis 0); entries are read with `List.getD`. -/

def nFft : ℕ := 32

def winLength : ℕ := 4

/-- librosa default `hop_length = win_length // 4`. -/
def hopLength : ℕ := winLength / 4

/-- Number of frequency bins of the one-sided transform, `1 + n_fft // 2`. -/
def nBins : ℕ := 1 + nFft / 2

/-- The Hann window of length 4 (`scipy.signal.get_window("hann", 4)`,
periodic): `0.5 - 0.5*cos(2*pi*n/4)` at `n = 0, 1, 2, 3`, whose cosines are
`1, 0, -1, 0`, so the window is exactly `[0, 1/2, 1, 1/2]`. -/
noncomputable def hannWindow4 : List ℝ := [0, 1/2, 1, 1/2]

/-- The analysis window: `hann(win_length)` padded (centred) to `n_fft`
(librosa `util.pad_center`): the window occupies offsets `14..17` of the
32-sample frame. -/
noncomputable def fftWindow (n : ℕ) : ℝ :=
  if 14 ≤ n ∧ n < 14 + winLength then hannWindow4.getD (n - 14) 0 else 0

/-- The padded signal (`center=True`, `pad_mode="constant"`): `n_fft/2` zeros
on each side of the row. -/
noncomputable def padSignal (x : List ℝ) (p : ℕ) : ℝ :=
  if p < nFft / 2 then 0
  else if p < nFft / 2 + x.length then x.getD (p - nFft / 2) 0
  else 0

/-- Number of frames of the transform of a length-`D` row:
`1 + (padded_length - n_fft) / hop` with `padded_length = D + n_fft`. -/
def numFrames (x : List ℝ) : ℕ := 1 + (x.length + nFft - nFft) / hopLength

/-- One STFT coefficient: the `k`-th DFT bin of the windowed frame starting at
`t * hop` of the padded row, `sum_n w(n) y(t*hop + n) exp(-2*pi*i*k*n/n_fft)`. -/
noncomputable def stftCoeff (r : List ℝ) (k t : ℕ) : ℂ :=
  ∑ n ∈ Finset.range nFft,
    ((fftWindow n * padSignal r (t * hopLength + n) : ℝ) : ℂ) *
      Complex.exp (-(2 * Real.pi * Complex.I * k * n / nFft))

/-- The short-time transform of one row (one chunk's embedding vector), as a
`bins × frames` nested list. -/
noncomputable def stft1 (r : List ℝ) : List (List ℂ) :=
  (List.range nBins).map fun k => (List.range (numFrames r)).map fun t => stftCoeff r k t

/-- The notebook's `get_fft`: `librosa.stft(embedding, n_fft=32, win_length=4)`
on the `N × D` embedding matrix, transforming along the last (dimension) axis:
axis 0 of the result enumerates the chunks. -/
noncomputable def get_fft (x : List (List ℝ)) : List (List (List ℂ)) :=
  x.map fun r =>
    (List.range nBins).map fun k => (List.range (numFrames r)).map fun t => stftCoeff r k t

/-- numpy `fft.shape[1]`: for the `(N, bins, frames)` transform output this is
the frequency-bin axis. -/
def npShape1 (a : List (List (List ℂ))) : ℕ := (a.headD []).length

/-- The in-place slice assignment `fft[:, cut:] = 0`: on every axis-0 slice,
every axis-1 row with index `≥ cut` is replaced by zeros. -/
def zeroBinsFrom (a : List (List (List ℂ))) (cut : ℤ) : List (List (List ℂ)) :=
  a.map fun ch =>
    (List.range ch.length).map fun (k : ℕ) =>
      if cut ≤ (k : ℤ) then (ch.getD k []).map (fun _ => 0) else ch.getD k []

/-- The notebook's `lowpass_filter(fft, cutoff)`: copy the array, then assign
`fft[:, int(cutoff*fft.shape[1]):] = 0` on the copy and return it. -/
def lowpass_filter (fft : List (List (List ℂ))) (cutoff : ℚ) : List (List (List ℂ)) :=
  zeroBinsFrom fft (pyIntOfRat (cutoff * (npShape1 fft : ℚ)))

/-- Entry accessor for a 3-D array, with numpy-irrelevant out-of-range reads
defaulting to `0`. -/
def specEntry (a : List (List (List ℂ))) (ch k t : ℕ) : ℂ :=
  ((a.getD ch []).getD k []).getD t 0

/-! ### The inverse transform (`librosa.istft`)

`istft` infers `n_fft = 2*(shape[-2]-1)` from the bin axis, rebuilds each
frame's full spectrum from the one-sided one by conjugate symmetry
(numpy `irfft`), inverse-DFTs it, multiplies by the same window, overlap-adds
the frames at the hop, divides samplewise by the summed squared window, and
trims `n_fft/2` samples from either end (`center=True`).

numpy's `irfft` returns the real part of the inverse DFT of the symmetrised
spectrum.  librosa only divides where the summed squared window exceeds a tiny
threshold; where it vanishes every window factor of the overlap-add vanishes
as well, so both the source and the model produce `0` there and the model can
divide unconditionally (`x / 0 = 0` in `ℝ`). -/

/-- The `n_fft` that `istft` infers from the bin axis: `2 * (shape[-2] - 1)`. -/
def istftNFft (s : List (List ℂ)) : ℕ := 2 * (s.length - 1)

/-- Number of frames of a `bins × frames` spectrum. -/
def istftFrames (s : List (List ℂ)) : ℕ := (s.headD []).length

/-- The full spectrum of frame `t`, rebuilt from the one-sided spectrum by
conjugate symmetry (`numpy.fft.irfft`): bin `k < bins` is read directly, bin
`k ≥ bins` is the conjugate of bin `n_fft - k`. -/
noncomputable def fullSpectrum (s : List (List ℂ)) (t k : ℕ) : ℂ :=
  if k < s.length then (s.getD k []).getD t 0
  else (starRingEnd ℂ) ((s.getD (istftNFft s - k) []).getD t 0)

/-- Sample `n` of the inverse DFT of frame `t`'s rebuilt spectrum:
`(1/n_fft) * sum_k full(k) exp(2*pi*i*k*n/n_fft)`, real part (numpy `irfft`
returns a real array). -/
noncomputable def irfftSample (s : List (List ℂ)) (t n : ℕ) : ℝ :=
  ((istftNFft s : ℂ)⁻¹ *
    ∑ k ∈ Finset.range (istftNFft s),
      fullSpectrum s t k * Complex.exp (2 * Real.pi * Complex.I * k * n / istftNFft s)).re

/-- The windowed overlap-add of the inverse-DFT frames at sample `p` of the
(untrimmed) output. -/
noncomputable def overlapAdd (s : List (List ℂ)) (p : ℕ) : ℝ :=
  ∑ t ∈ Finset.range (istftFrames s),
    if t * hopLength ≤ p ∧ p < t * hopLength + istftNFft s then
      fftWindow (p - t * hopLength) * irfftSample s t (p - t * hopLength)
    else 0

/-- librosa `window_sumsquare`: the summed squared analysis window at sample
`p` of the untrimmed output. -/
noncomputable def windowSumSquare (s : List (List ℂ)) (p : ℕ) : ℝ :=
  ∑ t ∈ Finset.range (istftFrames s),
    if t * hopLength ≤ p ∧ p < t * hopLength + istftNFft s then
      (fftWindow (p - t * hopLength)) ^ 2
    else 0

/-- Length of the untrimmed overlap-add output:
`n_fft + hop * (frames - 1)`. -/
def oaLength (s : List (List ℂ)) : ℕ := istftNFft s + hopLength * (istftFrames s - 1)

/-- The inverse transform `librosa.istft` of one channel's `bins × frames` spectrum: normalised
overlap-add with `n_fft/2` samples trimmed from either end. -/
noncomputable def istft1 (s : List (List ℂ)) : List ℝ :=
  (List.range (oaLength s - 2 * (istftNFft s / 2))).map fun i =>
    overlapAdd s (i + istftNFft s / 2) / windowSumSquare s (i + istftNFft s / 2)

/-- The notebook's `fft_to_embedding`: `librosa.istft(fft, win_length=4)`,
applied to each axis-0 slice (chunk) of the 3-D array. -/
noncomputable def fft_to_embedding (fft : List (List (List ℂ))) : List (List ℝ) :=
  fft.map istft1

/-- numpy `np.mean(m, axis=0)`: the arithmetic mean over the chunk axis. -/
noncomputable def npMeanAxis0 (m : List (List ℝ)) : List ℝ :=
  (List.range (m.headD []).length).map fun d =>
    (m.map fun r => r.getD d 0).sum / (m.length : ℝ)

/-- The notebook's aggregation pipeline for one document: forward transform,
optional lowpass filter at `cutoff = 0.5`, inverse transform, mean over the
chunk axis. -/
noncomputable def aggregate (x : List (List ℝ)) (apply_lowpass : Bool) : List ℝ :=
  npMeanAxis0 (fft_to_embedding
    (if apply_lowpass then lowpass_filter (get_fft x) (1/2) else get_fft x))

/-! ### Definitions modelled from the spec's words, and the mutation model -/

/-- The columns of the `N × D` embedding matrix: dimension `d`'s values over
chunk position. -/
def matrixColumns (x : List (List ℝ)) : List (List ℝ) :=
  (List.range (x.headD []).length).map fun d => x.map fun r => r.getD d 0

/-- The forward transform as claim C1 reads it (one short-time transform per
embedding dimension, taken along the chunk axis): apply the 1-D short-time
transform to each column of the embedding matrix.  This definition follows
the spec's words and exists only to be compared against `get_fft`. -/
noncomputable def specTransformPerDimension (x : List (List ℝ)) : List (List (List ℂ)) :=
  (matrixColumns x).map stft1

/-- The Python call `lowpass_filter(heap[ref], cutoff)` with the heap made
explicit: numpy arrays are heap cells, the argument is passed by reference,
`fft = fft.copy()` allocates a fresh cell, and the slice assignment
`fft[:, int(cutoff*fft.shape[1]):] = 0` mutates the cell the local name is
bound to (the copy).  Returns the new heap and the returned array's cell. -/
def lowpassFilterCall (heap : List (List (List (List ℂ)))) (ref : ℕ) (cutoff : ℚ) :
    List (List (List (List ℂ))) × ℕ :=
  let fftLocal := heap.getD ref []
  let heap1 := heap ++ [fftLocal]
  let copyRef := heap.length
  let heap2 := heap1.set copyRef
    (zeroBinsFrom (heap1.getD copyRef [])
      (pyIntOfRat (cutoff * (npShape1 (heap1.getD copyRef []) : ℚ))))
  (heap2, copyRef)

/-! ## Helper lemmas -/

theorem getD_range_map {α : Type} (f : ℕ → α) (n i : ℕ) (d : α) :
    ((List.range n).map f).getD i d = if i < n then f i else d := by
  rcases Nat.lt_or_ge i n with h | h
  · rw [List.getD_eq_getElem?_getD]
    simp [List.getElem?_map, List.getElem?_range h, h]
  · rw [List.getD_eq_getElem?_getD]
    rw [List.getElem?_eq_none (by simpa using h)]
    simp [Nat.not_lt.mpr h]

theorem self_eq_range_map_getD {α : Type} (d : α) (r : List α) :
    (List.range r.length).map (fun i => r.getD i d) = r := by
  apply List.ext_getElem
  · simp
  · intro i h1 h2
    simp [List.getD_eq_getElem?_getD, List.getElem?_eq_getElem h2]

/-- Orthogonality of the 32nd roots of unity: the inner product of the `m`-th
analysis twiddle row and the `n`-th synthesis twiddle row is `32` on the
diagonal and `0` off it. -/
theorem dft_inversion (m n : ℕ) (hm : m < 32) (hn : n < 32) :
    (∑ k ∈ Finset.range 32,
      Complex.exp (-(2 * Real.pi * Complex.I * k * m / 32)) *
        Complex.exp (2 * Real.pi * Complex.I * k * n / 32))
    = if m = n then 32 else 0 := by
  have hterm : ∀ k : ℕ,
      Complex.exp (-(2 * Real.pi * Complex.I * k * m / 32)) *
        Complex.exp (2 * Real.pi * Complex.I * k * n / 32)
      = Complex.exp (2 * Real.pi * Complex.I * ((n : ℂ) - m) / 32) ^ k := by
    intro k
    rw [← Complex.exp_nat_mul, ← Complex.exp_add]
    congr 1
    ring
  simp only [hterm]
  by_cases hmn : m = n
  · subst hmn
    simp
  · rw [if_neg hmn]
    have h2piI : (2 * (Real.pi : ℂ) * Complex.I) ≠ 0 := by
      simp [Real.pi_ne_zero, Complex.I_ne_zero]
    have hx1 : Complex.exp (2 * Real.pi * Complex.I * ((n : ℂ) - m) / 32) ≠ 1 := by
      rw [Ne, Complex.exp_eq_one_iff]
      rintro ⟨j, hj⟩
      have hkey : (2 * (Real.pi : ℂ) * Complex.I) * ((n : ℂ) - m)
          = (2 * (Real.pi : ℂ) * Complex.I) * (32 * j) := by
        linear_combination 32 * hj
      have h32 : ((n : ℂ) - m) = 32 * j := mul_left_cancel₀ h2piI hkey
      have hz : ((n : ℤ) - m) = 32 * j := by exact_mod_cast h32
      have hne : ((n : ℤ) - m) ≠ 0 := fun h0 => hmn (by omega)
      omega
    rw [geom_sum_eq hx1]
    have hxpow : Complex.exp (2 * Real.pi * Complex.I * ((n : ℂ) - m) / 32) ^ 32 = 1 := by
      rw [← Complex.exp_nat_mul]
      have harg : ((32 : ℕ) : ℂ) * (2 * Real.pi * Complex.I * ((n : ℂ) - m) / 32)
          = (((n : ℤ) - m : ℤ) : ℂ) * (2 * Real.pi * Complex.I) := by
        push_cast
        ring
      rw [harg, Complex.exp_int_mul_two_pi_mul_I]
    rw [hxpow]
    simp

theorem stft1_length (r : List ℝ) : (stft1 r).length = 17 := by
  simp [stft1, nBins, nFft]

theorem stft1_nfft (r : List ℝ) : istftNFft (stft1 r) = 32 := by
  rw [istftNFft, stft1_length]

theorem numFrames_eq (r : List ℝ) : numFrames r = r.length + 1 := by
  simp [numFrames, hopLength, winLength, nFft]
  omega

theorem stft1_frames (r : List ℝ) : istftFrames (stft1 r) = r.length + 1 := by
  rw [istftFrames, stft1]
  have h17 : nBins = 17 := by simp [nBins, nFft]
  rw [h17]
  rw [show (17 : ℕ) = 16 + 1 from rfl, List.range_succ_eq_map]
  simp [numFrames_eq]

theorem stft1_getD (r : List ℝ) (k t : ℕ) (hk : k < 17) (ht : t < numFrames r) :
    ((stft1 r).getD k []).getD t 0 = stftCoeff r k t := by
  rw [stft1]
  have h17 : nBins = 17 := by simp [nBins, nFft]
  rw [h17, getD_range_map _ 17 k _, if_pos hk, getD_range_map _ _ t _, if_pos ht]

theorem conj_exp_neg_angle (a b : ℕ) :
    (starRingEnd ℂ) (Complex.exp (-(2 * Real.pi * Complex.I * a * b / 32)))
      = Complex.exp (2 * Real.pi * Complex.I * a * b / 32) := by
  rw [← Complex.exp_conj]
  congr 1
  simp only [map_neg, map_div₀, map_mul, map_ofNat, map_natCast, Complex.conj_I,
    Complex.conj_ofReal]
  ring

theorem exp_shift_angle (k n : ℕ) (_hk1 : 17 ≤ k) (hk2 : k < 32) :
    Complex.exp (2 * Real.pi * Complex.I * ((32 - k : ℕ) : ℂ) * n / 32)
      = Complex.exp (-(2 * Real.pi * Complex.I * k * n / 32)) := by
  have hcast : ((32 - k : ℕ) : ℂ) = 32 - (k : ℂ) := by
    push_cast [Nat.cast_sub (le_of_lt hk2)]
    ring
  have harg : 2 * (Real.pi : ℂ) * Complex.I * ((32 - k : ℕ) : ℂ) * n / 32
      = -(2 * Real.pi * Complex.I * k * n / 32) + (n : ℂ) * (2 * Real.pi * Complex.I) := by
    rw [hcast]
    ring
  rw [harg, Complex.exp_add, Complex.exp_nat_mul_two_pi_mul_I, mul_one]

/-- The rebuilt full spectrum of a frame of `stft1 r` is the genuine full DFT
of the windowed frame. -/
theorem fullSpectrum_stft1 (r : List ℝ) (t k : ℕ) (ht : t < numFrames r) (hk : k < 32) :
    fullSpectrum (stft1 r) t k
      = ∑ n ∈ Finset.range 32,
          ((fftWindow n * padSignal r (t + n) : ℝ) : ℂ) *
            Complex.exp (-(2 * Real.pi * Complex.I * k * n / 32)) := by
  have hcoeff : ∀ k' : ℕ, stftCoeff r k' t
      = ∑ n ∈ Finset.range 32,
          ((fftWindow n * padSignal r (t + n) : ℝ) : ℂ) *
            Complex.exp (-(2 * Real.pi * Complex.I * k' * n / 32)) := by
    intro k'
    rw [stftCoeff]
    simp [hopLength, winLength, nFft]
  rw [fullSpectrum, stft1_length, stft1_nfft]
  by_cases hk17 : k < 17
  · rw [if_pos hk17, stft1_getD r k t hk17 ht, hcoeff]
  · rw [if_neg hk17]
    push_neg at hk17
    have hk32 : 32 - k < 17 := by omega
    rw [stft1_getD r (32 - k) t hk32 ht, hcoeff]
    rw [map_sum]
    apply Finset.sum_congr rfl
    intro n _
    rw [map_mul, Complex.conj_ofReal, conj_exp_neg_angle, exp_shift_angle k n hk17 hk]

/-- numpy `irfft` inverts the windowed frame's one-sided DFT exactly. -/
theorem irfft_stft_frame (r : List ℝ) (t n : ℕ) (ht : t < numFrames r) (hn : n < 32) :
    irfftSample (stft1 r) t n = fftWindow n * padSignal r (t + n) := by
  rw [irfftSample, stft1_nfft]
  simp only [Nat.cast_ofNat]
  have hsum : (∑ k ∈ Finset.range 32,
      fullSpectrum (stft1 r) t k * Complex.exp (2 * Real.pi * Complex.I * k * n / 32))
      = ((32 * (fftWindow n * padSignal r (t + n)) : ℝ) : ℂ) := by
    have hfull : ∀ k ∈ Finset.range 32,
        fullSpectrum (stft1 r) t k * Complex.exp (2 * Real.pi * Complex.I * k * n / 32)
        = ∑ m ∈ Finset.range 32,
            ((fftWindow m * padSignal r (t + m) : ℝ) : ℂ) *
              (Complex.exp (-(2 * Real.pi * Complex.I * k * m / 32)) *
                Complex.exp (2 * Real.pi * Complex.I * k * n / 32)) := by
      intro k hk
      rw [fullSpectrum_stft1 r t k ht (Finset.mem_range.mp hk), Finset.sum_mul]
      apply Finset.sum_congr rfl
      intro m _
      ring
    rw [Finset.sum_congr rfl hfull, Finset.sum_comm]
    have hinner : ∀ m ∈ Finset.range 32,
        (∑ k ∈ Finset.range 32,
          ((fftWindow m * padSignal r (t + m) : ℝ) : ℂ) *
            (Complex.exp (-(2 * Real.pi * Complex.I * k * m / 32)) *
              Complex.exp (2 * Real.pi * Complex.I * k * n / 32)))
        = ((fftWindow m * padSignal r (t + m) : ℝ) : ℂ) * (if m = n then (32 : ℂ) else 0) := by
      intro m hm
      rw [← Finset.mul_sum, dft_inversion m n (Finset.mem_range.mp hm) hn]
    rw [Finset.sum_congr rfl hinner, Finset.sum_eq_single n]
    · rw [if_pos rfl]
      push_cast
      ring
    · intro b _ hbn
      rw [if_neg hbn, mul_zero]
    · intro hnn
      exact absurd (Finset.mem_range.mpr hn) hnn
  rw [hsum]
  have h32inv : ((32 : ℂ))⁻¹ * ((32 * (fftWindow n * padSignal r (t + n)) : ℝ) : ℂ)
      = ((fftWindow n * padSignal r (t + n) : ℝ) : ℂ) := by
    push_cast
    field_simp
  rw [h32inv, Complex.ofReal_re]

theorem hop_one : hopLength = 1 := rfl

theorem fftWindow_sixteen : fftWindow 16 = 1 := by
  norm_num [fftWindow, winLength, hannWindow4]

theorem fftWindow_nonneg (n : ℕ) : 0 ≤ fftWindow n := by
  rw [fftWindow]
  have hw : winLength = 4 := rfl
  rw [hw]
  split
  · rename_i h
    have h4 : n - 14 = 0 ∨ n - 14 = 1 ∨ n - 14 = 2 ∨ n - 14 = 3 := by omega
    rcases h4 with h4 | h4 | h4 | h4 <;> rw [h4] <;> norm_num [hannWindow4]
  · exact le_refl 0

/-- The overlap-add of the inverse frames of `stft1 r` is the padded signal
weighted by the summed squared window. -/
theorem overlapAdd_stft1 (r : List ℝ) (p : ℕ) :
    overlapAdd (stft1 r) p = padSignal r p * windowSumSquare (stft1 r) p := by
  rw [overlapAdd, windowSumSquare, Finset.mul_sum]
  apply Finset.sum_congr rfl
  intro t htm
  simp only [hop_one, mul_one]
  rw [stft1_nfft]
  split
  · rename_i h
    have ht : t < numFrames r := by
      have := Finset.mem_range.mp htm
      rw [stft1_frames] at this
      rw [numFrames_eq]
      exact this
    rw [irfft_stft_frame r t (p - t) ht (by omega)]
    have htp : t + (p - t) = p := by omega
    rw [htp]
    ring
  · rw [mul_zero]

theorem windowSumSquare_stft1_pos (r : List ℝ) (i : ℕ) (hi : i < r.length) :
    (1 : ℝ) ≤ windowSumSquare (stft1 r) (i + 16) := by
  rw [windowSumSquare]
  have hmem : i ∈ Finset.range (istftFrames (stft1 r)) := by
    rw [stft1_frames]
    exact Finset.mem_range.mpr (by omega)
  have hval : (if i * hopLength ≤ i + 16 ∧ i + 16 < i * hopLength + istftNFft (stft1 r) then
      (fftWindow (i + 16 - i * hopLength)) ^ 2 else 0) = 1 := by
    simp only [hop_one, mul_one]
    rw [stft1_nfft, if_pos (by omega)]
    have : i + 16 - i = 16 := by omega
    rw [this, fftWindow_sixteen]
    norm_num
  have hnn : ∀ t ∈ Finset.range (istftFrames (stft1 r)),
      (0 : ℝ) ≤ (if t * hopLength ≤ i + 16 ∧ i + 16 < t * hopLength + istftNFft (stft1 r) then
        (fftWindow (i + 16 - t * hopLength)) ^ 2 else 0) := by
    intro t _
    split
    · exact sq_nonneg _
    · exact le_refl 0
  have hle := Finset.single_le_sum hnn hmem
  rw [hval] at hle
  exact hle

/-- Round trip for one channel: `istft1 (stft1 r) = r`, exactly. -/
theorem istft_stft (r : List ℝ) : istft1 (stft1 r) = r := by
  have hlen : oaLength (stft1 r) - 2 * (istftNFft (stft1 r) / 2) = r.length := by
    rw [oaLength, stft1_nfft, stft1_frames]
    simp [hop_one]
  have h16 : istftNFft (stft1 r) / 2 = 16 := by
    rw [stft1_nfft]
  rw [istft1]
  rw [show oaLength (stft1 r) - 2 * (istftNFft (stft1 r) / 2) = r.length from hlen]
  simp only [h16]
  have hmap : ∀ i ∈ List.range r.length,
      overlapAdd (stft1 r) (i + 16) / windowSumSquare (stft1 r) (i + 16) = r.getD i 0 := by
    intro i hi
    have h1 : i < r.length := List.mem_range.mp hi
    have hwss := windowSumSquare_stft1_pos r i h1
    rw [overlapAdd_stft1]
    have hpad : padSignal r (i + 16) = r.getD i 0 := by
      rw [padSignal]
      have hn16 : nFft / 2 = 16 := by norm_num [nFft]
      rw [hn16, if_neg (by omega), if_pos (by omega)]
      norm_num
    rw [mul_div_assoc, div_self (by linarith), mul_one, hpad]
  rw [List.map_congr_left hmap, self_eq_range_map_getD]

/-- The whole-matrix round trip, shared by the claims that need it. -/
theorem fft_roundtrip (x : List (List ℝ)) : fft_to_embedding (get_fft x) = x := by
  have hgf : get_fft x = x.map stft1 := rfl
  rw [hgf, fft_to_embedding, List.map_map]
  have hcomp : ∀ r ∈ x, (istft1 ∘ stft1) r = id r := fun r _ => istft_stft r
  rw [List.map_congr_left hcomp, List.map_id]

/-! ## The claims -/

/-- Claim C3: for every embedding matrix `x`, the inverse short-time transform
of the forward short-time transform (same window length, no filter) reproduces
`x` elementwise — exactly, in the idealised real-arithmetic model, hence a
fortiori within any floating-point tolerance. -/
theorem C3_roundtrip_identity (x : List (List ℝ)) :
    fft_to_embedding (get_fft x) = x :=
  fft_roundtrip x

theorem getD_map_in {α β : Type} (f : α → β) (l : List α) (i : ℕ) (h : i < l.length)
    (d : α) (e : β) : (l.map f).getD i e = f (l.getD i d) := by
  rw [List.getD_eq_getElem?_getD, List.getD_eq_getElem?_getD, List.getElem?_map,
    List.getElem?_eq_getElem h]
  rfl

theorem getD_map_const_zero (l : List ℂ) (t : ℕ) :
    (l.map fun _ => (0 : ℂ)).getD t 0 = 0 := by
  rcases Nat.lt_or_ge t l.length with h | h
  · rw [getD_map_in _ l t h 0 0]
  · exact List.getD_eq_default _ _ (by simpa using h)

theorem getD_map_out {α β : Type} (f : α → β) (l : List α) (i : ℕ) (h : l.length ≤ i)
    (e : β) : (l.map f).getD i e = e :=
  List.getD_eq_default _ _ (by simpa using h)

/-- Claim C1, as stated, fails on the code: the forward transform is *not*
taken along the chunk axis per dimension.  On the concrete `1 × 2` matrix
`[[1, 0]]` the code produces one short-time transform (one per chunk), while
the per-dimension reading would produce two (one per dimension). -/
theorem C1_counterexample :
    ¬ (∀ x : List (List ℝ), get_fft x = specTransformPerDimension x) := by
  intro h
  have h1 := congrArg List.length (h [[1, 0]])
  simp [get_fft, specTransformPerDimension, matrixColumns] at h1

/-- Claim C1 amended: `get_fft` transforms along the dimension (`D`) axis
independently per chunk — it is the per-row 1-D short-time transform of the
embedding matrix, and each chunk's frame axis tracks that chunk's dimension
count, not the chunk count. -/
theorem C1_amended_per_chunk_transform (x : List (List ℝ)) :
    get_fft x = x.map stft1 ∧ ∀ r ∈ x, istftFrames (stft1 r) = r.length + 1 :=
  ⟨rfl, fun r _ => stft1_frames r⟩

theorem C1_amended_witness :
    get_fft [[1, 0]] = [[1, 0]].map stft1 ∧
      ∀ r ∈ ([[1, 0]] : List (List ℝ)), istftFrames (stft1 r) = r.length + 1 :=
  C1_amended_per_chunk_transform [[1, 0]]

/-- Claim C2: for a transform output and `cutoff_fraction ∈ [0, 1]`, the
lowpass filter zeroes exactly the entries whose frequency-bin index (axis 1,
not the frame axis) is at least `floor(cutoff * bin_count)` where `bin_count =
fft.shape[1]`, leaves every other entry unchanged, and preserves all shapes. -/
theorem C2_lowpass_zeroes_bins (fft : List (List (List ℂ))) (cutoff : ℚ)
    (hc0 : 0 ≤ cutoff) (_hc1 : cutoff ≤ 1) (ch k t : ℕ)
    (hch : ch < fft.length) (hk : k < (fft.getD ch []).length) :
    (lowpass_filter fft cutoff).length = fft.length ∧
    ((lowpass_filter fft cutoff).getD ch []).length = (fft.getD ch []).length ∧
    specEntry (lowpass_filter fft cutoff) ch k t
      = if (⌊cutoff * (npShape1 fft : ℚ)⌋ : ℤ) ≤ (k : ℤ) then 0
        else specEntry fft ch k t := by
  have hcut : pyIntOfRat (cutoff * (npShape1 fft : ℚ)) = ⌊cutoff * (npShape1 fft : ℚ)⌋ := by
    rw [pyIntOfRat, if_pos (by positivity)]
  refine ⟨by simp [lowpass_filter, zeroBinsFrom], ?_, ?_⟩
  · rw [lowpass_filter, zeroBinsFrom, getD_map_in _ fft ch hch [] []]
    simp
  · rw [specEntry, specEntry, lowpass_filter, hcut, zeroBinsFrom,
      getD_map_in _ fft ch hch [] [], getD_range_map, if_pos hk]
    split
    · exact getD_map_const_zero _ _
    · rfl

theorem C2_witness :
    (lowpass_filter [[[1], [1]]] (1/2)).length = ([[[1], [1]]] : List (List (List ℂ))).length ∧
    ((lowpass_filter [[[1], [1]]] (1/2)).getD 0 []).length
      = (([[[1], [1]]] : List (List (List ℂ))).getD 0 []).length ∧
    specEntry (lowpass_filter [[[1], [1]]] (1/2)) 0 1 0
      = if (⌊(1/2 : ℚ) * (npShape1 [[[1], [1]]] : ℚ)⌋ : ℤ) ≤ (1 : ℕ) then 0
        else specEntry [[[1], [1]]] 0 1 0 :=
  C2_lowpass_zeroes_bins [[[1], [1]]] (1/2) (by norm_num) (by norm_num) 0 1 0
    (by simp) (by simp)

/-- Claim C5, as stated, fails on the code: `cutoff_fraction = 0.0` does not
retain the DC bin — `int(0.0 * bin_count) = 0`, so the assignment
`fft[:, 0:] = 0` zeroes bin 0 as well, as the concrete one-entry
representation `[[[1]]]` shows. -/
theorem C5_counterexample :
    ¬ (∀ (fft : List (List (List ℂ))) (ch t : ℕ),
        specEntry (lowpass_filter fft 0) ch 0 t = specEntry fft ch 0 t) := by
  intro h
  have h1 := h [[[1]]] 0 0
  have hL : specEntry (lowpass_filter [[[1]]] 0) 0 0 0 = 0 := by
    norm_num [specEntry, lowpass_filter, zeroBinsFrom, npShape1, pyIntOfRat]
  have hR : specEntry ([[[1]]] : List (List (List ℂ))) 0 0 0 = 1 := by
    simp [specEntry]
  rw [hL, hR] at h1
  exact one_ne_zero h1.symm

/-- Claim C5 amended: `cutoff_fraction = 0.0` zeroes *every* frequency bin of
the representation, the DC bin included, and the reconstructed sequence is
identically zero (a constant sequence, but the all-zero one, not the
DC component). -/
theorem C5_amended_cutoff_zero_zeroes_all (fft : List (List (List ℂ))) :
    (∀ ch k t, specEntry (lowpass_filter fft 0) ch k t = 0) ∧
    (∀ ch i, ((fft_to_embedding (lowpass_filter fft 0)).getD ch []).getD i 0 = 0) := by
  have hcut : pyIntOfRat ((0 : ℚ) * (npShape1 fft : ℚ)) = 0 := by
    norm_num [pyIntOfRat]
  have hzero : ∀ ch k t, specEntry (lowpass_filter fft 0) ch k t = 0 := by
    intro ch k t
    rw [specEntry, lowpass_filter, hcut, zeroBinsFrom]
    rcases Nat.lt_or_ge ch fft.length with hch | hch
    · rw [getD_map_in _ fft ch hch [] [], getD_range_map]
      split
      · rw [if_pos (Int.natCast_nonneg k)]
        exact getD_map_const_zero _ _
      · simp
    · rw [getD_map_out _ fft ch hch []]
      simp
  refine ⟨hzero, ?_⟩
  intro ch i
  rw [fft_to_embedding]
  rcases Nat.lt_or_ge ch (lowpass_filter fft 0).length with hch | hch
  · rw [getD_map_in _ _ ch hch [] []]
    set s := (lowpass_filter fft 0).getD ch [] with hs
    have hent : ∀ k t, (s.getD k []).getD t 0 = 0 := fun k t => hzero ch k t
    have hirfft : ∀ t n, irfftSample s t n = 0 := by
      intro t n
      rw [irfftSample]
      have : ∀ k ∈ Finset.range (istftNFft s),
          fullSpectrum s t k * Complex.exp (2 * Real.pi * Complex.I * k * n / istftNFft s)
          = 0 := by
        intro k _
        rw [fullSpectrum]
        split
        · rw [hent, zero_mul]
        · rw [hent, map_zero, zero_mul]
      rw [Finset.sum_congr rfl this]
      simp
    have hoa : ∀ p, overlapAdd s p = 0 := by
      intro p
      rw [overlapAdd]
      apply Finset.sum_eq_zero
      intro t _
      split
      · rw [hirfft, mul_zero]
      · rfl
    rw [istft1]
    rcases Nat.lt_or_ge i (oaLength s - 2 * (istftNFft s / 2)) with hi | hi
    · rw [getD_map_in _ _ i (by simpa using hi) 0 0, hoa, zero_div]
    · exact getD_map_out _ _ i (by simpa using hi) 0
  · rw [getD_map_out _ _ ch hch []]
    simp

/-- Claim C9: `lowpass_filter` never mutates its argument.  In the explicit
heap model of the call, the caller's array cell is unchanged after the call,
and the returned cell holds the filtered copy. -/
theorem C9_lowpass_nonmutating (heap : List (List (List (List ℂ)))) (ref : ℕ)
    (cutoff : ℚ) (h : ref < heap.length) :
    (lowpassFilterCall heap ref cutoff).1.getD ref [] = heap.getD ref [] ∧
    (lowpassFilterCall heap ref cutoff).1.getD (lowpassFilterCall heap ref cutoff).2 []
      = lowpass_filter (heap.getD ref []) cutoff := by
  have hb : (heap ++ [heap.getD ref []]).getD heap.length [] = heap.getD ref [] := by
    rw [List.getD_eq_getElem?_getD, List.getElem?_concat_length]
    rfl
  have hset : ∀ x : List (List (List ℂ)),
      (heap ++ [heap.getD ref []]).set heap.length x = heap ++ [x] := by
    intro x
    rw [List.set_append_right _ _ (le_refl _)]
    simp
  constructor
  · rw [lowpassFilterCall]
    simp only [hb, hset]
    exact List.getD_append _ _ _ _ h
  · rw [lowpassFilterCall]
    simp only [hb, hset]
    rw [List.getD_eq_getElem?_getD, List.getElem?_concat_length]
    rfl

theorem C9_witness :
    (lowpassFilterCall [[[[1]]]] 0 (1/2)).1.getD 0 [] = ([[[[1]]]] :
        List (List (List (List ℂ)))).getD 0 [] ∧
    (lowpassFilterCall [[[[1]]]] 0 (1/2)).1.getD (lowpassFilterCall [[[[1]]]] 0 (1/2)).2 []
      = lowpass_filter (([[[[1]]]] : List (List (List (List ℂ)))).getD 0 []) (1/2) :=
  C9_lowpass_nonmutating [[[[1]]]] 0 (1/2) (by simp)

/-- The numeric value of a Python object, where it has one (used to state
what "overlap_fraction outside [0,1]" means across types). -/
def pyNumValue : PyVal → Option ℚ
  | .float q => some q
  | .int n => some (n : ℚ)
  | .bool b => some (if b then 1 else 0)
  | _ => Option.none

/-- Claim C7: `split_text` rejects every invalid parameter set with an
exception (the spec's `InvalidArgument`): a non-string `text`, a
`window_size` that is not a positive integer, or an `overlap_fraction` whose
numeric value (if any) lies outside `[0, 1]`.  In particular
`segment(text, window_size=0, ...)` and
`segment(text, 5, overlap_fraction=1.5)` both fail. -/
theorem C7_rejects_invalid (text ws op : PyVal)
    (h : isinstanceStr text = false
      ∨ ¬(isinstanceInt ws = true ∧ 0 < pyIntVal ws)
      ∨ (∀ q : ℚ, pyNumValue op = some q → q < 0 ∨ 1 < q)) :
    ∃ e : PyError, splitText text ws op = .error e := by
  cases text with
  | str s =>
    simp only [splitText]
    by_cases h1 : isinstanceInt ws = false ∨ pyIntVal ws ≤ 0
    · exact ⟨_, by rw [if_pos h1]⟩
    · rw [if_neg h1]
      by_cases h2 : isinstanceFloat op = false ∨ pyFloatVal op < 0 ∨ 1 < pyFloatVal op
      · exact ⟨_, by rw [if_pos h2]⟩
      · exfalso
        push_neg at h1 h2
        obtain ⟨hint, hpos⟩ := h1
        obtain ⟨hfl, hq0, hq1⟩ := h2
        rcases h with h | h | h
        · simp [isinstanceStr] at h
        · exact h ⟨by simpa using hint, by omega⟩
        · cases op with
          | float q =>
            have hq := h q rfl
            simp only [pyFloatVal] at hq0 hq1
            rcases hq with hq | hq
            · exact absurd hq (not_lt.mpr hq0)
            · exact absurd hq (not_lt.mpr hq1)
          | str a => exact hfl rfl
          | int a => exact hfl rfl
          | bool a => exact hfl rfl
          | none => exact hfl rfl
  | int n => exact ⟨.typeError "text must be a string", rfl⟩
  | bool b => exact ⟨.typeError "text must be a string", rfl⟩
  | float q => exact ⟨.typeError "text must be a string", rfl⟩
  | none => exact ⟨.typeError "text must be a string", rfl⟩

theorem C7_witness :
    ∃ e : PyError, splitText (.str "x") (.int 0) (.float (1/2)) = .error e :=
  C7_rejects_invalid (.str "x") (.int 0) (.float (1/2)) (Or.inr (Or.inl (by decide)))

/-- Claim C6: on a 100-word text, `segment(text, window_size=40,
overlap_fraction=0.5)` returns exactly `ceil(100/20) = 5` chunks, chunk `k`
being words `[20k, 20k+40)` joined with single spaces (the first chunk words
`[0,40)`, the second `[20,60)`, the last one shorter). -/
theorem C6_segmenter_coverage (s : String) (hw : (pyStrSplit s).length = 100) :
    splitText (.str s) (.int 40) (.float (1/2))
      = .ok [pyJoinSpace (pySlice (pyStrSplit s) 0 40),
             pyJoinSpace (pySlice (pyStrSplit s) 20 40),
             pyJoinSpace (pySlice (pyStrSplit s) 40 40),
             pyJoinSpace (pySlice (pyStrSplit s) 60 40),
             pyJoinSpace (pySlice (pyStrSplit s) 80 40)] := by
  have hskip : pyIntOfRat ((pyIntVal (.int 40) : ℚ) * (1 - pyFloatVal (.float (1/2)))) = 20 := by
    norm_num [pyIntOfRat, pyIntVal, pyFloatVal]
  simp only [splitText]
  rw [if_neg (by norm_num [isinstanceInt, pyIntVal]),
    if_neg (by norm_num [isinstanceFloat, pyFloatVal])]
  rw [hskip]
  rw [if_neg (by norm_num)]
  rw [hw]
  have hrange : pyRange0 100 (Int.toNat 20) = [0, 20, 40, 60, 80] := by decide
  rw [hrange]
  simp [pyIntVal, pySlice]


theorem C6_witness :
    splitText (.str "a a a a a a a a a a a a a a a a a a a a a a a a a a a a a a a a a a a a a a a a a a a a a a a a a a a a a a a a a a a a a a a a a a a a a a a a a a a a a a a a a a a a a a a a a a a a a a a a a a a a") (.int 40) (.float (1/2))
      = .ok [pyJoinSpace (pySlice (pyStrSplit "a a a a a a a a a a a a a a a a a a a a a a a a a a a a a a a a a a a a a a a a a a a a a a a a a a a a a a a a a a a a a a a a a a a a a a a a a a a a a a a a a a a a a a a a a a a a a a a a a a a a") 0 40),
             pyJoinSpace (pySlice (pyStrSplit "a a a a a a a a a a a a a a a a a a a a a a a a a a a a a a a a a a a a a a a a a a a a a a a a a a a a a a a a a a a a a a a a a a a a a a a a a a a a a a a a a a a a a a a a a a a a a a a a a a a a") 20 40),
             pyJoinSpace (pySlice (pyStrSplit "a a a a a a a a a a a a a a a a a a a a a a a a a a a a a a a a a a a a a a a a a a a a a a a a a a a a a a a a a a a a a a a a a a a a a a a a a a a a a a a a a a a a a a a a a a a a a a a a a a a a") 40 40),
             pyJoinSpace (pySlice (pyStrSplit "a a a a a a a a a a a a a a a a a a a a a a a a a a a a a a a a a a a a a a a a a a a a a a a a a a a a a a a a a a a a a a a a a a a a a a a a a a a a a a a a a a a a a a a a a a a a a a a a a a a a") 60 40),
             pyJoinSpace (pySlice (pyStrSplit "a a a a a a a a a a a a a a a a a a a a a a a a a a a a a a a a a a a a a a a a a a a a a a a a a a a a a a a a a a a a a a a a a a a a a a a a a a a a a a a a a a a a a a a a a a a a a a a a a a a a") 80 40)] :=
  C6_segmenter_coverage "a a a a a a a a a a a a a a a a a a a a a a a a a a a a a a a a a a a a a a a a a a a a a a a a a a a a a a a a a a a a a a a a a a a a a a a a a a a a a a a a a a a a a a a a a a a a a a a a a a a a" (by decide)

/-- Claim C8: whenever the computed stride `floor(window_size * (1 -
overlap_fraction))` is zero (for instance `overlap_fraction = 1.0`), the
segmenter fails with an error (Python's `range` rejects a zero step) instead
of looping forever or returning chunks. -/
theorem C8_zero_stride_errors (s : String) (n : ℤ) (q : ℚ)
    (hn : 0 < n) (hq0 : 0 ≤ q) (hq1 : q ≤ 1)
    (hskip : ⌊(n : ℚ) * (1 - q)⌋ = 0) :
    splitText (.str s) (.int n) (.float q)
      = .error (.valueError "range() arg 3 must not be zero") := by
  simp only [splitText]
  rw [if_neg (by simp [isinstanceInt, pyIntVal]; omega),
    if_neg (by simp [isinstanceFloat, pyFloatVal]; constructor <;> linarith)]
  have hzero : pyIntOfRat ((pyIntVal (.int n) : ℚ) * (1 - pyFloatVal (.float q))) = 0 := by
    rw [pyIntOfRat, if_pos]
    · exact hskip
    · apply mul_nonneg
      · exact_mod_cast hn.le
      · simp only [pyFloatVal]
        linarith
  rw [hzero, if_pos rfl]

theorem C8_witness :
    splitText (.str "") (.int 5) (.float 1)
      = .error (.valueError "range() arg 3 must not be zero") :=
  C8_zero_stride_errors "" 5 1 (by norm_num) (by norm_num) (by norm_num) (by norm_num)

/-- Claim C10 (implicit): the overlap argument must be a float *instance*:
passing the integers `0` or `1` — numerically inside the documented `[0,1]`
range — is rejected, because the validation tests `isinstance(overlap_percent,
float)` and a Python `int` is not a `float` instance. -/
theorem C10_integer_overlap_rejected (s : String) (n : ℤ) (hn : 0 < n) :
    splitText (.str s) (.int n) (.int 0)
        = .error (.valueError "overlap_percent must be a float between 0 and 1") ∧
    splitText (.str s) (.int n) (.int 1)
        = .error (.valueError "overlap_percent must be a float between 0 and 1") := by
  constructor <;>
  · simp only [splitText]
    rw [if_neg (by simp [isinstanceInt, pyIntVal]; omega), if_pos]
    left
    simp [isinstanceFloat]

theorem C10_witness :
    splitText (.str "x") (.int 40) (.int 0)
        = .error (.valueError "overlap_percent must be a float between 0 and 1") ∧
    splitText (.str "x") (.int 40) (.int 1)
        = .error (.valueError "overlap_percent must be a float between 0 and 1") :=
  C10_integer_overlap_rejected "x" 40 (by decide)

theorem stftCoeff_impulse_t0 (k : ℕ) :
    stftCoeff [1, 0] k 0
      = Complex.exp (-(2 * Real.pi * Complex.I * k * ((16 : ℕ) : ℂ) / 32)) := by
  rw [stftCoeff]
  simp only [show nFft = 32 from rfl, Finset.sum_range_succ, Finset.sum_range_zero]
  norm_num [fftWindow, hannWindow4, padSignal, winLength, nFft, hopLength,
    List.getD_cons_zero, List.getD_cons_succ]

theorem stftCoeff_impulse_t1 (k : ℕ) :
    stftCoeff [1, 0] k 1
      = (1/2 : ℂ) * Complex.exp (-(2 * Real.pi * Complex.I * k * ((15 : ℕ) : ℂ) / 32)) := by
  rw [stftCoeff]
  simp only [show nFft = 32 from rfl, Finset.sum_range_succ, Finset.sum_range_zero]
  norm_num [fftWindow, hannWindow4, padSignal, winLength, nFft, hopLength,
    List.getD_cons_zero, List.getD_cons_succ]

/-- The inverse DFT of a lowpassed (bins `≥ 8` zeroed) one-sided impulse
spectrum `c * exp(-2*pi*i*k*m/32)`, evaluated back at the impulse position
`m`: only `15` of the `32` full bins survive the filter, so the sample comes
back scaled by `15/32`. -/
theorem irfft_filtered_impulse (s : List (List ℂ)) (t m : ℕ) (c : ℝ) (_hm : m < 32)
    (hlen : s.length = 17)
    (hent : ∀ k < 17, (s.getD k []).getD t 0
        = if 8 ≤ k then 0
          else (c : ℂ) * Complex.exp (-(2 * Real.pi * Complex.I * k * ((m : ℕ) : ℂ) / 32))) :
    irfftSample s t m = 15 * c / 32 := by
  have hnfft : istftNFft s = 32 := by rw [istftNFft, hlen]
  have hfull : ∀ k < 32, fullSpectrum s t k
      = if k < 8 ∨ 25 ≤ k then
          (c : ℂ) * Complex.exp (-(2 * Real.pi * Complex.I * k * ((m : ℕ) : ℂ) / 32))
        else 0 := by
    intro k hk
    rw [fullSpectrum, hlen, hnfft]
    by_cases hk17 : k < 17
    · rw [if_pos hk17, hent k hk17]
      by_cases h8 : 8 ≤ k
      · rw [if_pos h8, if_neg (by omega)]
      · rw [if_neg h8, if_pos (by omega)]
    · rw [if_neg hk17]
      push_neg at hk17
      have hk32 : 32 - k < 17 := by omega
      rw [hent (32 - k) hk32]
      by_cases h8 : 8 ≤ 32 - k
      · rw [if_pos h8, map_zero, if_neg (by omega)]
      · rw [if_neg h8, if_pos (by omega), map_mul, Complex.conj_ofReal,
          conj_exp_neg_angle (32 - k) m, exp_shift_angle k m (by omega) (by omega)]
  rw [irfftSample, hnfft]
  simp only [Nat.cast_ofNat]
  have hsum : (∑ k ∈ Finset.range 32,
      fullSpectrum s t k * Complex.exp (2 * Real.pi * Complex.I * k * m / 32))
      = 15 * (c : ℂ) := by
    have hterm : ∀ k ∈ Finset.range 32,
        fullSpectrum s t k * Complex.exp (2 * Real.pi * Complex.I * k * m / 32)
        = if k < 8 ∨ 25 ≤ k then (c : ℂ) else 0 := by
      intro k hk
      rw [hfull k (Finset.mem_range.mp hk)]
      split
      · rw [mul_assoc, ← Complex.exp_add]
        have harg : -(2 * Real.pi * Complex.I * k * ((m : ℕ) : ℂ) / 32)
            + 2 * Real.pi * Complex.I * k * m / 32 = 0 := by
          ring
        rw [harg, Complex.exp_zero, mul_one]
      · rw [zero_mul]
    rw [Finset.sum_congr rfl hterm, Finset.sum_ite, Finset.sum_const, Finset.sum_const,
      smul_zero, add_zero]
    have hcard : (Finset.filter (fun k => k < 8 ∨ 25 ≤ k) (Finset.range 32)).card = 15 := by
      decide
    rw [hcard]
    norm_num
  rw [hsum]
  have hre : ((32 : ℂ))⁻¹ * (15 * (c : ℂ)) = ((15 * c / 32 : ℝ) : ℂ) := by
    push_cast
    ring
  rw [hre, Complex.ofReal_re]

theorem exF_cut : pyIntOfRat ((1/2 : ℚ) * (npShape1 (get_fft [[(1:ℝ), 0]]) : ℚ)) = 8 := by
  have h17 : npShape1 (get_fft [[(1:ℝ), 0]]) = 17 := stft1_length [1, 0]
  rw [h17]
  norm_num [pyIntOfRat]

theorem exF_eq : lowpass_filter (get_fft [[(1:ℝ), 0]]) (1/2)
    = [(List.range 17).map fun (k : ℕ) =>
        if (8 : ℤ) ≤ (k : ℤ) then ((stft1 [1, 0]).getD k []).map (fun _ => (0 : ℂ))
        else (stft1 [1, 0]).getD k []] := by
  rw [lowpass_filter, exF_cut]
  rw [show get_fft [[(1:ℝ), 0]] = [stft1 [1, 0]] from rfl, zeroBinsFrom]
  simp only [List.map_cons, List.map_nil, stft1_length]

theorem exChannel_entry (k : ℕ) (hk : k < 17) (t : ℕ) (ht : t < 3) :
    (((List.range 17).map fun (k : ℕ) =>
        if (8 : ℤ) ≤ (k : ℤ) then ((stft1 [1, 0]).getD k []).map (fun _ => (0 : ℂ))
        else (stft1 [1, 0]).getD k []).getD k []).getD t 0
      = if 8 ≤ k then 0 else stftCoeff [1, 0] k t := by
  rw [getD_range_map, if_pos hk]
  by_cases h8 : 8 ≤ k
  · rw [if_pos (by exact_mod_cast h8), if_pos h8]
    exact getD_map_const_zero _ _
  · rw [if_neg (by exact_mod_cast h8), if_neg h8]
    refine stft1_getD [1, 0] k t hk ?_
    rw [numFrames_eq]
    simpa using ht

theorem exChannel_frames :
    istftFrames ((List.range 17).map fun (k : ℕ) =>
        if (8 : ℤ) ≤ (k : ℤ) then ((stft1 [1, 0]).getD k []).map (fun _ => (0 : ℂ))
        else (stft1 [1, 0]).getD k []) = 3 := by
  simp only [istftFrames]
  rw [show (17 : ℕ) = 16 + 1 from rfl, List.range_succ_eq_map, List.map_cons]
  simp only [List.headD_cons]
  rw [if_neg (by norm_num)]
  rw [stft1, show nBins = 17 from by norm_num [nBins, nFft]]
  rw [getD_range_map, if_pos (by norm_num)]
  simp [numFrames_eq]

theorem exChannel_nfft :
    istftNFft ((List.range 17).map fun (k : ℕ) =>
        if (8 : ℤ) ≤ (k : ℤ) then ((stft1 [1, 0]).getD k []).map (fun _ => (0 : ℂ))
        else (stft1 [1, 0]).getD k []) = 32 := by
  rw [istftNFft]
  simp

theorem exIrfft_t0 :
    irfftSample ((List.range 17).map fun (k : ℕ) =>
        if (8 : ℤ) ≤ (k : ℤ) then ((stft1 [1, 0]).getD k []).map (fun _ => (0 : ℂ))
        else (stft1 [1, 0]).getD k []) 0 16 = 15 * 1 / 32 := by
  refine irfft_filtered_impulse _ 0 16 1 (by norm_num) (by simp) ?_
  intro k hk
  rw [exChannel_entry k hk 0 (by norm_num)]
  split
  · rfl
  · rw [stftCoeff_impulse_t0, Complex.ofReal_one, one_mul]

theorem exIrfft_t1 :
    irfftSample ((List.range 17).map fun (k : ℕ) =>
        if (8 : ℤ) ≤ (k : ℤ) then ((stft1 [1, 0]).getD k []).map (fun _ => (0 : ℂ))
        else (stft1 [1, 0]).getD k []) 1 15 = 15 * (1/2) / 32 := by
  refine irfft_filtered_impulse _ 1 15 (1/2) (by norm_num) (by simp) ?_
  intro k hk
  rw [exChannel_entry k hk 1 (by norm_num)]
  split
  · rfl
  · rw [stftCoeff_impulse_t1]
    norm_num

theorem exOverlapAdd :
    overlapAdd ((List.range 17).map fun (k : ℕ) =>
        if (8 : ℤ) ≤ (k : ℤ) then ((stft1 [1, 0]).getD k []).map (fun _ => (0 : ℂ))
        else (stft1 [1, 0]).getD k []) 16 = 75 / 128 := by
  rw [overlapAdd, exChannel_frames]
  simp only [exChannel_nfft, hop_one, mul_one]
  rw [Finset.sum_range_succ, Finset.sum_range_succ, Finset.sum_range_succ,
    Finset.sum_range_zero]
  rw [if_pos (by omega), if_pos (by omega), if_pos (by omega)]
  simp only [Nat.sub_zero, show (16 : ℕ) - 1 = 15 from rfl, show (16 : ℕ) - 2 = 14 from rfl]
  rw [exIrfft_t0, exIrfft_t1]
  have hw14 : fftWindow 14 = 0 := by norm_num [fftWindow, winLength, hannWindow4]
  have hw15 : fftWindow 15 = 1/2 := by norm_num [fftWindow, winLength, hannWindow4]
  have hw16 : fftWindow 16 = 1 := fftWindow_sixteen
  rw [hw14, hw15, hw16]
  norm_num

theorem exWindowSumSquare :
    windowSumSquare ((List.range 17).map fun (k : ℕ) =>
        if (8 : ℤ) ≤ (k : ℤ) then ((stft1 [1, 0]).getD k []).map (fun _ => (0 : ℂ))
        else (stft1 [1, 0]).getD k []) 16 = 5 / 4 := by
  rw [windowSumSquare, exChannel_frames]
  simp only [exChannel_nfft, hop_one, mul_one]
  rw [Finset.sum_range_succ, Finset.sum_range_succ, Finset.sum_range_succ,
    Finset.sum_range_zero]
  rw [if_pos (by omega), if_pos (by omega), if_pos (by omega)]
  simp only [Nat.sub_zero, show (16 : ℕ) - 1 = 15 from rfl, show (16 : ℕ) - 2 = 14 from rfl]
  have hw14 : fftWindow 14 = 0 := by norm_num [fftWindow, winLength, hannWindow4]
  have hw15 : fftWindow 15 = 1/2 := by norm_num [fftWindow, winLength, hannWindow4]
  have hw16 : fftWindow 16 = 1 := fftWindow_sixteen
  rw [hw14, hw15, hw16]
  norm_num

theorem exOutput :
    (istft1 ((List.range 17).map fun (k : ℕ) =>
        if (8 : ℤ) ≤ (k : ℤ) then ((stft1 [1, 0]).getD k []).map (fun _ => (0 : ℂ))
        else (stft1 [1, 0]).getD k [])).getD 0 0 = 15 / 32 := by
  rw [istft1]
  have hM : oaLength ((List.range 17).map fun (k : ℕ) =>
      if (8 : ℤ) ≤ (k : ℤ) then ((stft1 [1, 0]).getD k []).map (fun _ => (0 : ℂ))
      else (stft1 [1, 0]).getD k [])
      - 2 * (istftNFft ((List.range 17).map fun (k : ℕ) =>
        if (8 : ℤ) ≤ (k : ℤ) then ((stft1 [1, 0]).getD k []).map (fun _ => (0 : ℂ))
        else (stft1 [1, 0]).getD k []) / 2) = 2 := by
    rw [oaLength]
    simp only [exChannel_nfft, exChannel_frames, hop_one]
  rw [hM]
  rw [getD_range_map, if_pos (by norm_num)]
  simp only [exChannel_nfft, zero_add, show (32 : ℕ) / 2 = 16 from rfl]
  rw [exOverlapAdd, exWindowSumSquare]
  norm_num

theorem exAggregate : (aggregate [[(1:ℝ), 0]] true).getD 0 0 = 15 / 32 := by
  rw [aggregate, if_pos rfl, exF_eq]
  rw [fft_to_embedding]
  simp only [List.map_cons, List.map_nil]
  rw [npMeanAxis0]
  simp only [List.headD_cons, List.length_cons, List.length_nil]
  rw [getD_range_map, if_pos ?hpos]
  case hpos =>
    rw [istft1]
    simp only [List.length_map, List.length_range, oaLength, exChannel_nfft,
      exChannel_frames, hop_one]
    norm_num
  simp only [List.map_cons, List.map_nil, List.sum_cons, List.sum_nil, add_zero]
  rw [exOutput]
  norm_num

/-- Claim C4, as stated, fails on the code: with the filter on, the aggregate
of `N` identical copies of `v` is not `v`.  Because the transform runs along
the dimension axis, the lowpass filter smooths *within* each chunk's vector:
on `v = [1, 0]`, `N = 1` the first output coordinate is `15/32`, not `1`
(only 15 of the 32 full-spectrum bins survive the cutoff). -/
theorem C4_counterexample :
    ¬ (∀ (v : List ℝ) (N : ℕ), 0 < N →
        aggregate (List.replicate N v) true = v ∧
        aggregate (List.replicate N v) false = v) := by
  intro h
  have h1 := (h [1, 0] 1 one_pos).1
  rw [show List.replicate 1 [(1:ℝ), 0] = [[(1:ℝ), 0]] from rfl] at h1
  have hval := exAggregate
  rw [h1] at hval
  norm_num at hval

/-- Claim C4 amended: with `apply_filter` false the property does hold — the
unfiltered round trip is exact, and the mean of `N ≥ 1` identical rows is the
row itself.  (With `apply_filter` true it fails, see the counterexample.) -/
theorem C4_amended_unfiltered (v : List ℝ) (N : ℕ) (hN : 0 < N) :
    aggregate (List.replicate N v) false = v := by
  rw [aggregate, if_neg (by simp), fft_roundtrip, npMeanAxis0]
  have hhead : (List.replicate N v).headD [] = v := by
    cases N with
    | zero => omega
    | succ m => rfl
  rw [hhead]
  have hmap : ∀ d ∈ List.range v.length,
      ((List.replicate N v).map fun r => r.getD d 0).sum / ((List.replicate N v).length : ℝ)
        = v.getD d 0 := by
    intro d _
    rw [List.map_replicate, List.sum_replicate, List.length_replicate, nsmul_eq_mul]
    rw [mul_comm, mul_div_assoc, div_self (by exact_mod_cast hN.ne'), mul_one]
  rw [List.map_congr_left hmap, self_eq_range_map_getD]

theorem C4_amended_witness : aggregate (List.replicate 1 [(0:ℝ)]) false = [(0:ℝ)] :=
  C4_amended_unfiltered [0] 1 (by decide)
